import Mathlib

/-
Shallow embedding of the base-conversion program (src/src/main.rs).

Modelling conventions:
  - Rust strings are modelled as List Char; the byte slicing done by the
    source on the first two characters coincides with character indexing
    for the ASCII inputs the program is about.
  - Machine integers (usize, u8) are modelled as Nat.  The spec declares
    numeric overflow undefined behavior in the reference, so arithmetic is
    unbounded; the decimal string parse keeps the explicit 2 ^ 64 bound of
    a 64-bit usize because the Rust parse reports overflow as an error.
  - Fallible operations (unwrap, expect, out-of-range slicing, parse) are
    modelled with Option: none marks a run on which the source program
    panics or exits with an error.
  - The while loop of dec_to_base is modelled with an explicit fuel
    argument equal to the starting value: for base at least 2 the loop
    runs at most value iterations, so the fuel is never exhausted; for
    base at most 1 the source loop never terminates (modelled as none).
-/

/-- Embeds char_map from the source: digit values 0 to 9 map to the
characters with code 48 + i, values 10 to 36 to code 87 + i, anything
larger to None. -/
def char_map (i : Nat) : Option Char :=
  if i ≤ 9 then some (Char.ofNat (i + 48))
  else if i ≤ 36 then some (Char.ofNat (i + 87))
  else none

/-- Embeds the to_ascii_lowercase call used by map_char: adds 32 to the
code of an ASCII uppercase letter and leaves every other character
unchanged. -/
def to_ascii_lowercase (c : Char) : Char :=
  if 'A' ≤ c ∧ c ≤ 'Z' then Char.ofNat (c.toNat + 32) else c

/-- Embeds map_char from the source: lowercases the character, then maps
digits to 0 to 9, lowercase letters to 10 to 35, and everything else to
None. -/
def map_char (c : Char) : Option Nat :=
  let c_low := to_ascii_lowercase c
  if '0' ≤ c_low ∧ c_low ≤ '9' then some (c_low.toNat - 48)
  else if 'a' ≤ c_low ∧ c_low ≤ 'z' then some (c_low.toNat - 87)
  else none

/-- Embeds the accumulation loop of base_to_dec: the list is the input
characters in reversed order, the second argument the running position,
and each step adds map_char of the character times base to the position,
failing when map_char fails (the unwrap in the source). -/
def decode_loop (base : Nat) : List Char → Nat → Option Nat
  | [], _ => some 0
  | c :: rest, i =>
    (map_char c).bind (fun char_val =>
      (decode_loop base rest (i + 1)).map (fun s => char_val * base ^ i + s))

/-- Embeds base_to_dec from the source: a single character is decoded by
map_char alone; otherwise the two leading characters 0x, 0b or 0o are
dropped when present and the remainder is decoded positionally.  The
empty string is none because the source slices the first two bytes
unconditionally and panics on a shorter string. -/
def base_to_dec (in_val : List Char) (base : Nat) : Option Nat :=
  match in_val with
  | [c] => map_char c
  | c1 :: c2 :: rest =>
    let in_str :=
      if c1 = '0' ∧ (c2 = 'x' ∨ c2 = 'b' ∨ c2 = 'o') then rest
      else c1 :: c2 :: rest
    decode_loop base in_str.reverse 0
  | [] => none

/-- The characters of the input that base_to_dec actually decodes: the
whole input in the single-character case, the input without its first two
characters when they form a radix marker, the whole input otherwise. -/
def relevant_chars (in_val : List Char) : List Char :=
  match in_val with
  | [c] => [c]
  | c1 :: c2 :: rest =>
    if c1 = '0' ∧ (c2 = 'x' ∨ c2 = 'b' ∨ c2 = 'o') then rest
    else c1 :: c2 :: rest
  | [] => []

/-- Embeds the while loop of dec_to_base: repeatedly divide by base,
building the output with the character of each remainder in front.  The
first Nat argument is fuel bounding the number of iterations; the second
is the current value. -/
def dec_to_base_go (base : Nat) : Nat → Nat → Option (List Char)
  | _, 0 => some []
  | 0, _ + 1 => none
  | fuel + 1, n + 1 =>
    (char_map ((n + 1) % base)).bind (fun c =>
      (dec_to_base_go base fuel ((n + 1) / base)).map (fun rest => rest ++ [c]))

/-- Embeds dec_to_base from the source: zero encodes to the string 0,
anything else runs the division loop.  The starting value itself serves
as fuel; see the header comment. -/
def dec_to_base (in_dec : Nat) (base : Nat) : Option (List Char) :=
  if in_dec = 0 then some ['0']
  else dec_to_base_go base in_dec in_dec

/-- Embeds the parse of a usize from a decimal string as used by
convert_value for source base 10 on a 64-bit platform: an optional plus
sign, then at least one decimal digit, and the value must fit in 64 bits. -/
def parse_usize (s : List Char) : Option Nat :=
  let ds := match s with
    | '+' :: rest => rest
    | _ => s
  if ds = [] then none
  else if ds.all (fun c => decide ('0' ≤ c ∧ c ≤ '9')) then
    let n := ds.foldl (fun acc c => acc * 10 + (c.toNat - 48)) 0
    if n < 2 ^ 64 then some n else none
  else none

/-- Embeds the case dispatch of convert_value on the pair of bases, after
the sign has been handled: source base 10 parses a decimal value and
encodes it; destination base 10 decodes and formats in decimal; otherwise
decode then encode. -/
def conv_core (bases : Nat × Nat) (use_val : List Char) : Option (List Char) :=
  if bases.1 = 10 then
    match parse_usize use_val with
    | some dec_val => dec_to_base dec_val bases.2
    | none => none
  else if bases.2 = 10 then
    match base_to_dec use_val bases.1 with
    | some n => some (Nat.toDigits 10 n)
    | none => none
  else
    match base_to_dec use_val bases.1 with
    | some b2d => dec_to_base b2d bases.2
    | none => none

/-- Embeds convert_value from the source: inspecting the first character
of the empty string panics (none); a leading minus sign is removed before
conversion and put back on the result. -/
def convert_value (bases : Nat × Nat) (val : List Char) : Option (List Char) :=
  match val with
  | [] => none
  | c :: rest =>
    let use_val := if c = '-' then rest else c :: rest
    match conv_core bases use_val with
    | some conv_val => some (if c = '-' then '-' :: conv_val else conv_val)
    | none => none

/-- Embeds the value check of check_args: the exclusive upper bound
character is char_map of the source base (the unwrap fails when char_map
does), and every character of the raw value argument must be strictly
below it in code point order, else the program exits with an error
(none). -/
def check_value (base : Nat) (value : List Char) : Option Unit :=
  match char_map base with
  | none => none
  | some max_char =>
    if value.all (fun c => decide (c < max_char)) then some () else none

/-- Joint facts about the digit codec on the digit range: composing
map_char after char_map is the identity, and char_map yields the zero
character exactly for the digit zero. -/
lemma codec_facts : ∀ r < 36,
    ((char_map r).bind map_char = some r) ∧ ((char_map r = some '0') ↔ r = 0) := by
  decide

/-- Claim C8: for every digit value d in 0 to 35 the digit codec is
inverse: map_char applied to the character char_map produces recovers d. -/
theorem codec_inverse (d : Nat) (hd : d ≤ 35) :
    (char_map d).bind map_char = some d :=
  (codec_facts d (by omega)).1

/-- Witness for codec_inverse at the digit value 35. -/
theorem codec_inverse_w : (char_map 35).bind map_char = some 35 :=
  codec_inverse 35 (by decide)

/-- Claim C10: for every base, base_to_dec applied to a bare radix marker
string 0x, 0b or 0o strips the two marker characters and decodes the
empty remainder to zero. -/
theorem bare_marker_decodes_zero (b : Nat) :
    base_to_dec ['0', 'x'] b = some 0 ∧ base_to_dec ['0', 'b'] b = some 0 ∧
    base_to_dec ['0', 'o'] b = some 0 :=
  ⟨rfl, rfl, rfl⟩

/-- Claim C9: convert_value is partial at the public interface: the empty
input fails because inspecting the first character panics, while on any
non-empty input the first character inspection succeeds. -/
theorem convert_value_needs_nonempty (b1 b2 : Nat) :
    convert_value (b1, b2) [] = none ∧
    ∀ (c : Char) (v : List Char), (c :: v).head? = some c :=
  ⟨rfl, fun _ _ => rfl⟩

/-- Witness for convert_value_needs_nonempty at bases 10 and 16. -/
theorem convert_value_needs_nonempty_w :
    convert_value (10, 16) [] = none ∧
    ∀ (c : Char) (v : List Char), (c :: v).head? = some c :=
  convert_value_needs_nonempty 10 16

/-- Claim C6: on an input of length at least two, base_to_dec drops the
first two characters exactly when they are a radix marker 0x, 0b or 0o,
for every base, and drops nothing otherwise. -/
theorem radix_marker_drop (b : Nat) (c1 c2 : Char) (rest : List Char) :
    (c1 = '0' ∧ (c2 = 'x' ∨ c2 = 'b' ∨ c2 = 'o') →
      base_to_dec (c1 :: c2 :: rest) b =
        decode_loop b ((c1 :: c2 :: rest).drop 2).reverse 0) ∧
    (¬ (c1 = '0' ∧ (c2 = 'x' ∨ c2 = 'b' ∨ c2 = 'o')) →
      base_to_dec (c1 :: c2 :: rest) b =
        decode_loop b (c1 :: c2 :: rest).reverse 0) := by
  constructor <;> intro h <;> simp [base_to_dec, h]

/-- Witness for radix_marker_drop: base 20 does not match the hex marker
yet the marker is still dropped, and a non-marker head is kept. -/
theorem radix_marker_drop_w :
    (base_to_dec ['0', 'x', 'f'] 20 =
      decode_loop 20 ((['0', 'x', 'f'] : List Char).drop 2).reverse 0) ∧
    (base_to_dec ['1', 'x', 'f'] 20 =
      decode_loop 20 (['1', 'x', 'f'] : List Char).reverse 0) :=
  ⟨(radix_marker_drop 20 '0' 'x' ['f']).1 (by decide),
   (radix_marker_drop 20 '1' 'x' ['f']).2 (by decide)⟩

/-- Counterexample to claim C5: char_map at 36, a value outside 0 to 35,
still returns a character, namely the code point 123 one past the letter
z, rather than failing. -/
theorem char_map_36_cex : char_map 36 = some (Char.ofNat 123) ∧ 35 < 36 :=
  ⟨rfl, by decide⟩

/-- Claim C5 amended: char_map returns a character exactly for inputs up
to 36: digits up to 9 map into the decimal digit characters, 10 to 35
into the lowercase letters, 36 to the code point one past the letter z,
and every input of 37 or more fails. -/
theorem char_map_domain (d : Nat) :
    ((char_map d).isSome ↔ d ≤ 36) ∧
    (d ≤ 9 → (char_map d).any (fun c => decide ('0' ≤ c ∧ c ≤ '9')) = true) ∧
    (10 ≤ d → d ≤ 35 → (char_map d).any (fun c => decide ('a' ≤ c ∧ c ≤ 'z')) = true) ∧
    (d = 36 → char_map d = some (Char.ofNat 123)) := by
  by_cases hd : d < 37
  · have key : ∀ e < 37, ((char_map e).isSome = true) ∧
        (e ≤ 9 → (char_map e).any (fun c => decide ('0' ≤ c ∧ c ≤ '9')) = true) ∧
        (10 ≤ e → e ≤ 35 → (char_map e).any (fun c => decide ('a' ≤ c ∧ c ≤ 'z')) = true) ∧
        (e = 36 → char_map e = some (Char.ofNat 123)) := by decide
    obtain ⟨k1, k2, k3, k4⟩ := key d hd
    exact ⟨by simp [k1]; omega, k2, k3, k4⟩
  · have hnone : char_map d = none := by
      simp only [char_map]
      rw [if_neg (by omega), if_neg (by omega)]
    refine ⟨by simp [hnone]; omega, ?_, ?_, ?_⟩ <;> intro h <;> omega

/-- Witness for char_map_domain at the digit value 35. -/
theorem char_map_domain_w :
    ((char_map 35).isSome ↔ 35 ≤ 36) ∧
    ((35 : Nat) ≤ 9 → (char_map 35).any (fun c => decide ('0' ≤ c ∧ c ≤ '9')) = true) ∧
    ((10 : Nat) ≤ 35 → (35 : Nat) ≤ 35 → (char_map 35).any (fun c => decide ('a' ≤ c ∧ c ≤ 'z')) = true) ∧
    ((35 : Nat) = 36 → char_map 35 = some (Char.ofNat 123)) :=
  char_map_domain 35

/-- Counterexample to claim C3: with source base 16, the validator
accepts the uppercase letter Z although its digit value 35 reaches the
base, while it rejects the lowercase z, so the comparison is not case
insensitive. -/
theorem check_value_case_cex :
    check_value 16 ['Z'] = some () ∧ check_value 16 ['z'] = none ∧
    map_char 'Z' = some 35 ∧ 16 ≤ 35 := by
  refine ⟨rfl, rfl, by decide, by decide⟩

/-- Claim C3 amended: on the canonical character of a digit d, that is
the decimal digits and lowercase letters char_map produces, the validator
fails exactly when d reaches the source base; the raw code point
comparison is case sensitive, so uppercase letters are not covered. -/
theorem check_value_digit_bound (b d : Nat) (hb : 2 ≤ b) (hb36 : b ≤ 36)
    (hd : d ≤ 35) :
    (check_value b (char_map d).toList = none ↔ b ≤ d) := by
  have key : ∀ b' < 37, ∀ d' < 36, 2 ≤ b' →
      ((check_value b' (char_map d').toList = none) ↔ b' ≤ d') := by decide
  exact key b (by omega) d (by omega) hb

/-- Witness for check_value_digit_bound: base 16 rejects the canonical
character of the digit 20. -/
theorem check_value_digit_bound_w :
    check_value 16 (char_map 20).toList = none ↔ 16 ≤ 20 :=
  check_value_digit_bound 16 20 (by decide) (by decide) (by decide)

/-- Counterexample to claim C4: the input consisting of a minus sign and
two f characters is never rejected by the validator under any source base
of 16 to 36, and those are exactly the bases in which the digit f, of
value 15, is legal, so no base configuration rejects the legitimate input
with the minus sign. -/
theorem neg_ff_never_rejected_cex :
    (∀ b < 37, 16 ≤ b → check_value b ['-', 'f', 'f'] = some ()) ∧
    map_char 'f' = some 15 := by
  constructor
  · decide
  · decide

/-- Claim C4 amended: only the hex marker half survives: the validator
rejects the legitimate input 0xff under source base 16, where the decoder
would happily produce 255, while the input with a minus sign before ff is
accepted under every source base of 16 to 36 in which it is legitimate. -/
theorem raw_scan_rejections :
    check_value 16 ['0', 'x', 'f', 'f'] = none ∧
    base_to_dec ['0', 'x', 'f', 'f'] 16 = some 255 ∧
    (∀ b < 37, 16 ≤ b → check_value b ['-', 'f', 'f'] = some ()) := by
  refine ⟨rfl, by decide, by decide⟩

/-- Counterexample to claim C2: base_to_dec does not reject a character
whose digit value reaches the base: under base 2 the character f, of
digit value 15, decodes to 15 instead of failing. -/
theorem oversized_digit_accepted_cex :
    base_to_dec ['f'] 2 = some 15 ∧ map_char 'f' = some 15 ∧ 2 ≤ 15 := by
  refine ⟨by decide, by decide, by decide⟩

/-- The accumulation loop fails exactly when some character of the list
fails to map to a digit. -/
lemma decode_loop_none_iff (b : Nat) (l : List Char) (i : Nat) :
    decode_loop b l i = none ↔ ∃ c ∈ l, map_char c = none := by
  induction l generalizing i with
  | nil => simp [decode_loop]
  | cons c t ih =>
    simp only [decode_loop]
    cases hmc : map_char c with
    | none =>
      exact ⟨fun _ => ⟨c, List.mem_cons_self c t, hmc⟩, fun _ => rfl⟩
    | some d =>
      simp only [Option.some_bind]
      cases h0 : decode_loop b t (i + 1) with
      | none =>
        have hex := (ih (i + 1)).1 h0
        exact ⟨fun _ => ⟨hex.choose, List.mem_cons_of_mem _ hex.choose_spec.1,
          hex.choose_spec.2⟩, fun _ => rfl⟩
      | some v =>
        constructor
        · intro hcontra; exact absurd hcontra (by simp)
        · rintro ⟨c', hc', hm'⟩
          rcases List.mem_cons.1 hc' with rfl | hmem
          · rw [hmc] at hm'; exact absurd hm' (by simp)
          · have hnn : decode_loop b t (i + 1) = none := (ih (i + 1)).2 ⟨c', hmem, hm'⟩
            rw [h0] at hnn; exact absurd hnn (by simp)

/-- Claim C2 amended: base_to_dec fails exactly when the input is empty
or some character among the ones it actually decodes maps to no digit at
all; in particular a character whose digit value reaches the base is not
rejected. -/
theorem base_to_dec_none_iff (b : Nat) (v : List Char) :
    base_to_dec v b = none ↔ (v = [] ∨ ∃ c ∈ relevant_chars v, map_char c = none) := by
  match v with
  | [] => simp [base_to_dec, relevant_chars]
  | [c] => simp [base_to_dec, relevant_chars]
  | c1 :: c2 :: rest =>
    simp only [base_to_dec, relevant_chars]
    by_cases h : c1 = '0' ∧ (c2 = 'x' ∨ c2 = 'b' ∨ c2 = 'o')
    · rw [if_pos h, decode_loop_none_iff]
      simp
    · rw [if_neg h, decode_loop_none_iff]
      simp only [List.mem_reverse]
      constructor
      · rintro ⟨c, hc, hm⟩
        rcases List.mem_cons.1 hc with rfl | hc
        · exact Or.inr ⟨c, List.mem_cons_self _ _, hm⟩
        · exact Or.inr ⟨c, List.mem_cons_of_mem _ hc, hm⟩
      · rintro (h0 | ⟨c, hc, hm⟩)
        · exact absurd h0 (by simp)
        · exact ⟨c, hc, hm⟩

/-- Claim C7: prepending a minus sign commutes with conversion: when a
value not itself starting with a minus sign converts successfully, the
signed value converts to the minus sign followed by the same result. -/
theorem convert_value_sign (b1 b2 : Nat) (v s : List Char)
    (hv : v.head? ≠ some '-') (h : convert_value (b1, b2) v = some s) :
    convert_value (b1, b2) ('-' :: v) = some ('-' :: s) := by
  cases v with
  | nil => exact absurd h (by simp [convert_value])
  | cons c rest =>
    have hc : ¬ (c = '-') := fun hcc => hv (by simp [hcc])
    simp only [convert_value, if_neg hc] at h
    simp only [convert_value, eq_self_iff_true, if_true]
    cases hcc : conv_core (b1, b2) (c :: rest) with
    | none => rw [hcc] at h; exact absurd h (by simp)
    | some cv =>
      rw [hcc] at h
      simp only [if_neg hc, Option.some.injEq] at h
      subst h
      rfl

/-- Witness for convert_value_sign: converting -10 from base 10 to 16. -/
theorem convert_value_sign_w :
    convert_value (10, 16) ['-', '1', '0'] = some ['-', 'a'] :=
  convert_value_sign 10 16 ['1', '0'] ['a'] (by decide) (by decide)

/-- Reading the accumulation loop at a higher starting position scales
the decoded value by the corresponding power of the base. -/
lemma decode_loop_shift (b : Nat) (l : List Char) (i : Nat) :
    decode_loop b l i = (decode_loop b l 0).map (fun v => v * b ^ i) := by
  induction l generalizing i with
  | nil => simp [decode_loop]
  | cons c t ih =>
    simp only [decode_loop]
    cases hmc : map_char c with
    | none => rfl
    | some d =>
      simp only [Option.some_bind]
      rw [ih (i + 1), ih 1]
      cases h0 : decode_loop b t 0 with
      | none => rfl
      | some v =>
        simp only [Option.map_some']
        congr 1
        ring

/-- The division loop of the encoder, run with sufficient fuel on a
positive value under a base of 2 to 36, produces a non-empty string that
the decoder loop reads back to the same value, and whose leading
character is not the zero character. -/
lemma go_correct (b : Nat) (hb : 2 ≤ b) (hb36 : b ≤ 36) :
    ∀ fuel n, 1 ≤ n → n ≤ fuel →
    ∃ s, dec_to_base_go b fuel n = some s ∧ s ≠ [] ∧
      decode_loop b s.reverse 0 = some n ∧ s.head? ≠ some '0' := by
  intro fuel
  induction fuel with
  | zero => intro n h1 h2; omega
  | succ f ih =>
    intro n h1 h2
    obtain ⟨m, rfl⟩ : ∃ m, n = m + 1 := ⟨n - 1, by omega⟩
    have hr36 : (m + 1) % b < 36 :=
      lt_of_lt_of_le (Nat.mod_lt _ (by omega)) (by omega)
    obtain ⟨hinv, h0iff⟩ := codec_facts ((m + 1) % b) hr36
    cases hc : char_map ((m + 1) % b) with
    | none => rw [hc] at hinv; exact absurd hinv (by simp)
    | some c =>
      rw [hc] at hinv h0iff
      simp only [Option.some_bind] at hinv
      simp only [Option.some.injEq] at h0iff
      by_cases hq : (m + 1) / b = 0
      · have hrn : (m + 1) % b = m + 1 := by
          have hdm := Nat.mod_add_div (m + 1) b
          rw [hq, Nat.mul_zero] at hdm
          omega
        refine ⟨[c], ?_, by simp, ?_, ?_⟩
        · simp only [dec_to_base_go, hc, hq, Option.some_bind, Option.map_some',
            List.nil_append]
        · simp only [List.reverse_singleton, decode_loop, hinv, Option.some_bind,
            Option.map_some', pow_zero, mul_one, Nat.add_zero, hrn]
        · simp only [List.head?_cons, ne_eq, Option.some.injEq]
          intro hc0
          have : (m + 1) % b = 0 := h0iff.1 hc0
          omega
      · have hq1 : 1 ≤ (m + 1) / b := Nat.pos_of_ne_zero hq
        have hqf : (m + 1) / b ≤ f := by
          have : (m + 1) / b < m + 1 := Nat.div_lt_self (by omega) (by omega)
          omega
        obtain ⟨s', hgo', hne', hdec', hhd'⟩ := ih ((m + 1) / b) hq1 hqf
        refine ⟨s' ++ [c], ?_, by simp, ?_, ?_⟩
        · simp only [dec_to_base_go, hc, hgo', Option.some_bind, Option.map_some']
        · rw [List.reverse_append, List.reverse_singleton, List.singleton_append]
          simp only [decode_loop, hinv, Option.some_bind]
          rw [decode_loop_shift b s'.reverse 1, hdec']
          simp only [Option.map_some', pow_zero, mul_one, pow_one]
          congr 1
          exact Nat.mod_add_div' (m + 1) b
        · cases s' with
          | nil => exact absurd rfl hne'
          | cons a t => simpa using hhd'

/-- Claim C1: for every base of 2 to 36 and every magnitude within the
native 64-bit unsigned range, decoding the encoding round-trips:
base_to_dec recovers the value dec_to_base produced. -/
theorem dec_base_round_trip (b m : Nat) (hb : 2 ≤ b) (hb36 : b ≤ 36)
    (hm : m < 2 ^ 64) :
    (dec_to_base m b).bind (fun s => base_to_dec s b) = some m := by
  by_cases hm0 : m = 0
  · subst hm0
    simp only [dec_to_base, if_pos rfl, Option.some_bind]
    rfl
  · obtain ⟨s, hgo, hne, hdec, hhd⟩ :=
      go_correct b hb hb36 m m (by omega) (le_refl m)
    have hdtb : dec_to_base m b = some s := by
      simp only [dec_to_base, if_neg hm0, hgo]
    rw [hdtb, Option.some_bind]
    match s, hne, hdec, hhd with
    | [c], _, hdec, _ =>
      simp only [List.reverse_singleton, decode_loop] at hdec
      cases hmc : map_char c with
      | none => rw [hmc] at hdec; exact absurd hdec (by simp)
      | some d =>
        rw [hmc] at hdec
        simp only [Option.some_bind, Option.map_some', pow_zero, mul_one,
          Nat.add_zero] at hdec
        simp only [base_to_dec, hmc]
        exact hdec
    | c1 :: c2 :: rest, _, hdec, hhd =>
      have hc1 : ¬ (c1 = '0') := by
        simp only [List.head?_cons, ne_eq, Option.some.injEq] at hhd
        exact hhd
      have hcond : ¬ (c1 = '0' ∧ (c2 = 'x' ∨ c2 = 'b' ∨ c2 = 'o')) :=
        fun hcontra => hc1 hcontra.1
      simp only [base_to_dec, if_neg hcond]
      exact hdec

/-- Witness for dec_base_round_trip: the value 4660 survives the trip
through base 16. -/
theorem dec_base_round_trip_w :
    (dec_to_base 4660 16).bind (fun s => base_to_dec s 16) = some 4660 :=
  dec_base_round_trip 16 4660 (by decide) (by decide) (by decide)
